import Mathlib

/-!
Verification of the UtilityHub configuration loader.

Part 1 embeds `utilityhub_config/utils.py` (`expand_path`,
`expand_and_validate_path`, `expand_path_validator`).  Paths follow the
POSIX `pathlib.PurePosixPath` semantics actually exercised by the code:
a path is a root (`""`, `"/"` or `"//"`) plus a list of components, with
empty and `"."` components dropped by parsing.  Environment-variable
expansion follows CPython `posixpath.expandvars` (`$VAR` with ASCII word
characters, `${VAR}` with an arbitrary brace-delimited name; undefined
variables are left in place).  The filesystem is a list of existing
path strings; the process environment, home directory and user table
are explicit inputs.
-/

/-- An ASCII word character, as matched by the `re.ASCII` class `\w`
used by `posixpath.expandvars`. -/
def isWordChar (c : Char) : Bool :=
  ('a' ≤ c && c ≤ 'z') || ('A' ≤ c && c ≤ 'Z') || ('0' ≤ c && c ≤ '9') || c = '_'

/-- Split a character list at every slash (the slashes are dropped,
empty segments are kept and filtered later, as `PurePosixPath` does). -/
def splitSl : List Char → List (List Char)
  | [] => [[]]
  | c :: rest =>
    let r := splitSl rest
    if c = '/' then [] :: r
    else
      match r with
      | s :: ss => (c :: s) :: ss
      | [] => [[c]]

/-- A parsed POSIX path: the root is `""` (relative), `"/"` or `"//"`,
and the components contain no slash, are nonempty and are not `"."`. -/
structure PyPath where
  root : String
  parts : List String
deriving DecidableEq

/-- `PurePosixPath(s)`: read the root off the leading slashes (exactly
two slashes give the special `"//"` root) and keep the nonempty,
non-`"."` components. -/
def parsePath (s : String) : PyPath :=
  let cs := s.data
  let n := (cs.takeWhile (fun c => c = '/')).length
  let root := if n = 0 then "" else if n = 2 then "//" else "/"
  let parts := ((splitSl cs).map String.mk).filter (fun t => t ≠ "" && t ≠ ".")
  ⟨root, parts⟩

/-- `str(path)` for a parsed POSIX path: `"."` for the empty relative
path, otherwise the root followed by the slash-joined components. -/
def pathStr (p : PyPath) : String :=
  if p.root = "" then
    if p.parts = [] then "." else String.intercalate "/" p.parts
  else p.root ++ String.intercalate "/" p.parts

/-- A path is absolute exactly when it has a root. -/
def PyPath.isAbsolute (p : PyPath) : Bool := p.root ≠ ""

/-- First-match lookup in an association list (Python `dict` access on
the mappings the code reads). -/
def lookupKV (k : String) : List (String × String) → Option String
  | [] => none
  | (k₂, v) :: rest => if k₂ = k then some v else lookupKV k rest

/-- The pieces of operating-system state read by `utils.py`: the
caller's home directory, the process environment and the passwd table
used for `~user` lookups. -/
structure OSEnv where
  home : String
  vars : List (String × String)
  users : List (String × String)
deriving DecidableEq

/-- Re-parse a home-directory string and prepend it to the remaining
components, as `pathlib` does when rebuilding the expanded path. -/
def joinParsed (head : String) (rest : List String) : PyPath :=
  let parsed := parsePath head
  ⟨parsed.root, parsed.parts ++ rest⟩

/-- `PurePosixPath.expanduser`: when the path is relative and its first
component starts with `~`, replace that component by the home directory
(`~` itself) or by the named user's home; an unresolvable user is a
`RuntimeError` in `pathlib`. -/
def expanduserP (e : OSEnv) (p : PyPath) : Except String PyPath :=
  match p.parts with
  | p₀ :: rest =>
    if p.root = "" ∧ p₀.data.head? = some '~' then
      if p₀ = "~" then .ok (joinParsed e.home rest)
      else
        match lookupKV (String.mk (p₀.data.drop 1)) e.users with
        | some h => .ok (joinParsed h rest)
        | none => .error "Could not determine home directory."
    else .ok p
  | [] => .ok p

theorem dropWhile_length_le {α : Type} (p : α → Bool) :
    ∀ l : List α, (l.dropWhile p).length ≤ l.length := by
  intro l
  induction l with
  | nil => simp [List.dropWhile]
  | cons a l ih =>
    by_cases h : p a
    · simp [List.dropWhile, h]; omega
    · simp [List.dropWhile, h]

/-- `posixpath.expandvars` on a character list: scan for `$`; a `$`
followed by a brace-delimited name or a maximal run of word characters
is replaced by the variable's value when defined and left verbatim when
not; any other `$` is literal.  Replacement values are not rescanned
(the scan resumes after the consumed reference, as CPython's index
arithmetic does). -/
def expandVarsL (env : String → Option String) : List Char → List Char
  | [] => []
  | c :: cs =>
    if c = '$' then
      match cs with
      | '{' :: cs₂ =>
        let name := cs₂.takeWhile (fun x => x ≠ '}')
        let rest := cs₂.dropWhile (fun x => x ≠ '}')
        if rest.head? = some '}' then
          let tail := rest.tail
          match env (String.mk name) with
          | some v => v.data ++ expandVarsL env tail
          | none => '$' :: '{' :: (name ++ '}' :: expandVarsL env tail)
        else '$' :: expandVarsL env ('{' :: cs₂)
      | d :: cs₂ =>
        if isWordChar d then
          let name := d :: cs₂.takeWhile isWordChar
          let tail := cs₂.dropWhile isWordChar
          match env (String.mk name) with
          | some v => v.data ++ expandVarsL env tail
          | none => '$' :: (name ++ expandVarsL env tail)
        else '$' :: expandVarsL env (d :: cs₂)
      | [] => ['$']
    else c :: expandVarsL env cs
termination_by cs => cs.length
decreasing_by
  all_goals simp only [List.length_cons]
  all_goals try omega
  all_goals first
    | (have h₂ := dropWhile_length_le (fun x => decide (x ≠ '}')) cs₂
       have h₃ := List.length_tail (cs₂.dropWhile (fun x => decide (x ≠ '}')))
       omega)
    | (have h₂ := dropWhile_length_le isWordChar cs₂
       omega)

/-- `expand_path` from `utils.py`: `Path(value).expanduser()`, then
`os.path.expandvars` on its string form, then `Path(...)` again. -/
def expand_path (e : OSEnv) (value : String) : Except String PyPath :=
  match expanduserP e (parsePath value) with
  | .error m => .error m
  | .ok p => .ok (parsePath (String.mk (expandVarsL (fun n => lookupKV n e.vars) (pathStr p).data)))

/-- `expand_and_validate_path` from `utils.py`: expand, then require the
expanded path to exist, else `FileNotFoundError("Path does not exist: {path}")`
naming the expanded path. -/
def expand_and_validate_path (e : OSEnv) (fs : List String) (value : String) :
    Except String PyPath :=
  match expand_path e value with
  | .error m => .error m
  | .ok p =>
    if pathStr p ∈ fs then .ok p
    else .error ("Path does not exist: " ++ pathStr p)

/-- The argument of the validator hook: a `Path` or a string. -/
inductive PathValue where
  | path (p : PyPath)
  | str (s : String)
deriving DecidableEq

/-- `expand_path_validator` from `utils.py`: stringify a `Path`
argument, then call `expand_and_validate_path`. -/
def expand_path_validator (e : OSEnv) (fs : List String) (v : PathValue) :
    Except String PyPath :=
  match v with
  | .path p => expand_and_validate_path e fs (pathStr p)
  | .str s => expand_and_validate_path e fs s

/-- The `str(value)` coercion named by the claimed equivalence for the
validator hook. -/
def strOfValue : PathValue → String
  | .path p => pathStr p
  | .str s => s

/-!
Part 2 embeds the Settings Resolver (`load_settings`).  Its module
(`utilityhub_config/api.py`, with `utilityhub_config/metadata.py`) is
not among the provided sources — only its tests and callers are — so the
definitions below are modelled from the specification's component
design: layers applied in increasing precedence as a left-fold, each
layer overwriting the keys it defines and recording its source name and
originating path, then a validation pass over the schema that fills
defaults and aggregates per-field errors into one message listing the
validation errors, the files checked and the precedence order.
-/

/-- Provenance of a field's winning value: the source layer's name and
the originating file path, when any. -/
structure Provenance where
  source : String
  sourcePath : Option String
deriving DecidableEq

/-- Modelled from the spec: a Layer is an ordered precedence stage with
a name, an optional originating file path and a mapping from field name
to raw value. -/
structure Layer where
  name : String
  path : Option String
  entries : List (String × String)
deriving DecidableEq

/-- Modelled from the spec: a schema field has a name and an optional
default value (raw values are kept as strings throughout the merge). -/
structure SchemaField where
  name : String
  default : Option String
deriving DecidableEq

/-- Modelled from the spec: the state `load_settings` reads — the
process environment, the parsed `.env` file in `cwd` when present, the
parsed explicit `config_file` when given, the parsed implicit project
file (`utilityhub.toml` in `cwd`) when present, and `cwd` itself.  File
layers carry their path together with their parsed key/value mapping. -/
structure World where
  env : List (String × String)
  dotenv : Option (String × List (String × String))
  configFile : Option (String × List (String × String))
  projectFile : Option (String × List (String × String))
  cwd : String
deriving DecidableEq

/-- Upper-case an ASCII letter, leave anything else unchanged (what
Python's `str.upper` does on the identifier characters of field
names). -/
def upChar (c : Char) : Char :=
  if 'a' ≤ c && c ≤ 'z' then Char.ofNat (c.toNat - 32) else c

/-- Modelled from the spec: the environment-variable name derived from
a field name is its upper-cased form (field names are already
underscore-separated). -/
def envName (field : String) : String := String.mk (field.data.map upChar)

/-- Modelled from the spec: the `defaults` layer contributes each
schema field's own default value, lowest precedence, no file path. -/
def defaultsLayer (schema : List SchemaField) : Layer :=
  ⟨"defaults", none, schema.filterMap (fun f => f.default.map (fun d => (f.name, d)))⟩

/-- Modelled from the spec: the `env` layer contributes, for each
schema field, the process environment's value under the field's derived
variable name, when set. -/
def envLayer (env : List (String × String)) (schema : List SchemaField) : Layer :=
  ⟨"env", none,
    schema.filterMap (fun f => (lookupKV (envName f.name) env).map (fun v => (f.name, v)))⟩

/-- Modelled from the spec: the `dotenv` layer contributes, for each
schema field, the `.env` file's value under the field's derived
variable name; an absent `.env` file contributes nothing. -/
def dotenvLayer (dotenv : Option (String × List (String × String)))
    (schema : List SchemaField) : Layer :=
  match dotenv with
  | none => ⟨"dotenv", none, []⟩
  | some (p, kvs) =>
    ⟨"dotenv", some p,
      schema.filterMap (fun f => (lookupKV (envName f.name) kvs).map (fun v => (f.name, v)))⟩

/-- Modelled from the spec: the `project` layer is the explicit
`config_file` when given, else the implicit project file in `cwd` when
present; its top-level keys map directly to field names and its
resolved path is recorded. -/
def projectLayer (w : World) : Layer :=
  match w.configFile with
  | some (p, kvs) => ⟨"project", some p, kvs⟩
  | none =>
    match w.projectFile with
    | some (p, kvs) => ⟨"project", some p, kvs⟩
    | none => ⟨"project", none, []⟩

/-- Modelled from the spec: the `overrides` mapping contributes values
with source `runtime`, unconditionally highest precedence. -/
def runtimeLayer (overrides : Option (List (String × String))) : Layer :=
  ⟨"runtime", none, overrides.getD []⟩

/-- Modelled from the spec: the ordered layer list, lowest precedence
first — defaults, environment, `.env`, project/explicit config file,
runtime overrides. -/
def layersOf (w : World) (schema : List SchemaField)
    (overrides : Option (List (String × String))) : List Layer :=
  [defaultsLayer schema, envLayer w.env schema, dotenvLayer w.dotenv schema,
   projectLayer w, runtimeLayer overrides]

/-- Lookup of a field's current value and provenance in the merged
store (the most recently written binding wins). -/
def lookupStore (k : String) : List (String × String × Provenance) → Option (String × Provenance)
  | [] => none
  | (k₂, v, pr) :: rest => if k₂ = k then some (v, pr) else lookupStore k rest

/-- Apply one layer to the store: each of its entries, in order,
overwrites the field's binding and records the layer's name and path. -/
def applyLayer (st : List (String × String × Provenance)) (l : Layer) :
    List (String × String × Provenance) :=
  l.entries.foldl (fun acc kv => (kv.1, kv.2, ⟨l.name, l.path⟩) :: acc) st

/-- Modelled from the spec: the merge is a left-fold of the ordered
layer list over the empty store. -/
def mergeLayers (layers : List Layer) : List (String × String × Provenance) :=
  layers.foldl applyLayer []

/-- Modelled from the spec: per-field validation of the merged mapping —
a field absent from every layer (including defaults) is a required-field
error, reported with the others. -/
def resolveField (st : List (String × String × Provenance)) (f : SchemaField) :
    Except String (String × Provenance) :=
  match lookupStore f.name st with
  | some vp => .ok vp
  | none => .error ("Field required: " ++ f.name)

/-- The successfully resolved `(field, value, provenance)` triples, in
schema order. -/
def resolvedPairs (st : List (String × String × Provenance)) (schema : List SchemaField) :
    List (String × String × Provenance) :=
  schema.filterMap (fun f =>
    match resolveField st f with
    | .ok vp => some (f.name, vp)
    | .error _ => none)

/-- The per-field validation errors, in schema order. -/
def fieldErrors (st : List (String × String × Provenance)) (schema : List SchemaField) :
    List String :=
  schema.filterMap (fun f =>
    match resolveField st f with
    | .ok _ => none
    | .error e => some e)

/-- Modelled from the spec: the files checked while resolving the
project config file — the explicit `config_file` when given, else the
implicit candidate in `cwd`. -/
def filesChecked (w : World) : List String :=
  match w.configFile with
  | some (p, _) => [p]
  | none => [w.cwd ++ "/utilityhub.toml"]

/-- Modelled from the spec: the aggregate error message contains the
per-field validation errors, the files checked in order, and the
precedence order. -/
def errorMessage (errs checked : List String) : String :=
  "Validation errors:\n" ++ String.intercalate "\n" errs ++
    "\nFiles checked:\n" ++ String.intercalate "\n" checked ++
    "\nPrecedence: defaults < env < dotenv < project < runtime"

/-- The provenance record returned beside the typed instance:
`get_source(field)` reports the winning layer's name and path. -/
structure SettingsMetadata where
  entries : List (String × Provenance)
deriving DecidableEq

/-- First-match lookup of a field's provenance. -/
def lookupPr (k : String) : List (String × Provenance) → Option Provenance
  | [] => none
  | (k₂, pr) :: rest => if k₂ = k then some pr else lookupPr k rest

/-- `metadata.get_source(field)`. -/
def SettingsMetadata.get_source (m : SettingsMetadata) (field : String) : Option Provenance :=
  lookupPr field m.entries

/-- Modelled from the spec: `load_settings(schema, overrides?,
config_file?, cwd?)` merges the ordered layers over the empty store,
validates every schema field against the merged mapping, and either
returns the resolved field values beside their provenance metadata or
raises one aggregate error. -/
def loadSettings (w : World) (schema : List SchemaField)
    (overrides : Option (List (String × String))) :
    Except String (List (String × String) × SettingsMetadata) :=
  let st := mergeLayers (layersOf w schema overrides)
  let errs := fieldErrors st schema
  if errs.isEmpty then
    .ok ((resolvedPairs st schema).map (fun e => (e.1, e.2.1)),
      ⟨(resolvedPairs st schema).map (fun e => (e.1, e.2.2))⟩)
  else
    .error (errorMessage errs (filesChecked w))

/-- The value a single layer's mapping gives a field: the last binding
of that key in the layer, `none` when the layer does not define it. -/
def lastVal (k : String) : List (String × String) → Option String
  | [] => none
  | (k₂, v) :: rest =>
    match lastVal k rest with
    | some w => some w
    | none => if k₂ = k then some v else none

/-- Whether a layer defines a field. -/
def definesField (k : String) (l : Layer) : Bool := (lastVal k l.entries).isSome

/-- The highest-precedence layer defining a field (layers are listed
lowest precedence first). -/
def lastDefining (k : String) : List Layer → Option Layer
  | [] => none
  | l :: ls =>
    match lastDefining k ls with
    | some l₂ => some l₂
    | none => if definesField k l then some l else none

/-- How many layers of a list define a field. -/
def definingCount (k : String) (layers : List Layer) : Nat :=
  (layers.filter (definesField k)).length

/-- Substring membership on character lists, used to state what the
aggregate error message contains. -/
def listPre : List Char → List Char → Bool
  | [], _ => true
  | _ :: _, [] => false
  | a :: as, b :: bs => a = b && listPre as bs

/-- `pat` occurs as a contiguous substring of `s`. -/
def containsSub (pat : List Char) : List Char → Bool
  | [] => listPre pat []
  | c :: rest => listPre pat (c :: rest) || containsSub pat rest

/-!
Part 3: lemmas about the precedence merge.
-/

theorem lookupStore_foldEntries (k : String) (pr : Provenance) :
    ∀ (entries : List (String × String)) (st : List (String × String × Provenance)),
    lookupStore k (entries.foldl (fun acc kv => (kv.1, kv.2, pr) :: acc) st) =
      match lastVal k entries with
      | some v => some (v, pr)
      | none => lookupStore k st := by
  intro entries
  induction entries with
  | nil => intro st; simp [lastVal]
  | cons kv rest ih =>
    intro st
    obtain ⟨k₂, v⟩ := kv
    simp only [List.foldl_cons]
    rw [ih]
    simp only [lastVal]
    cases lastVal k rest with
    | some w => simp
    | none =>
      by_cases h : k₂ = k
      · simp [lookupStore, h]
      · simp [lookupStore, h]

theorem lookupStore_applyLayer (k : String) (l : Layer) (st : List (String × String × Provenance)) :
    lookupStore k (applyLayer st l) =
      match lastVal k l.entries with
      | some v => some (v, ⟨l.name, l.path⟩)
      | none => lookupStore k st := by
  unfold applyLayer
  exact lookupStore_foldEntries k ⟨l.name, l.path⟩ l.entries st

theorem lookupStore_foldLayers (k : String) :
    ∀ (layers : List Layer) (st : List (String × String × Provenance)),
    lookupStore k (layers.foldl applyLayer st) =
      match lastDefining k layers with
      | some l => (lastVal k l.entries).map (fun v => (v, ⟨l.name, l.path⟩))
      | none => lookupStore k st := by
  intro layers
  induction layers with
  | nil => intro st; simp [lastDefining]
  | cons l ls ih =>
    intro st
    simp only [List.foldl_cons]
    rw [ih]
    simp only [lastDefining]
    cases lastDefining k ls with
    | some l₂ => simp
    | none =>
      simp only [definesField]
      rw [lookupStore_applyLayer]
      by_cases hd : (lastVal k l.entries).isSome
      · obtain ⟨v, hv⟩ := Option.isSome_iff_exists.mp hd
        simp [hv]
      · rw [Option.not_isSome_iff_eq_none] at hd
        simp [hd]

theorem lookupStore_merge (k : String) (layers : List Layer) :
    lookupStore k (mergeLayers layers) =
      match lastDefining k layers with
      | some l => (lastVal k l.entries).map (fun v => (v, ⟨l.name, l.path⟩))
      | none => none := by
  unfold mergeLayers
  rw [lookupStore_foldLayers]
  cases lastDefining k layers with
  | some l => rfl
  | none => rfl

theorem resolved_lookup (st : List (String × String × Provenance)) (k : String)
    (v : String) (pr : Provenance) :
    ∀ (schema : List SchemaField),
    k ∈ schema.map SchemaField.name →
    lookupStore k st = some (v, pr) →
    lookupKV k ((resolvedPairs st schema).map (fun e => (e.1, e.2.1))) = some v ∧
      lookupPr k ((resolvedPairs st schema).map (fun e => (e.1, e.2.2))) = some pr := by
  intro schema
  induction schema with
  | nil => intro hf; simp at hf
  | cons fld rest ih =>
    intro hf hst
    by_cases hn : fld.name = k
    · have hres : resolveField st fld = .ok (v, pr) := by
        unfold resolveField
        rw [hn, hst]
      simp only [resolvedPairs, List.filterMap_cons, hres]
      simp [lookupKV, lookupPr, hn]
    · have hf₂ : k ∈ rest.map SchemaField.name := by
        simp only [List.map_cons, List.mem_cons] at hf
        rcases hf with h | h
        · exact absurd h.symm hn
        · exact h
      have hrec := ih hf₂ hst
      simp only [resolvedPairs] at hrec ⊢
      simp only [List.filterMap_cons]
      cases hres : resolveField st fld with
      | ok vp =>
        simp only [List.map_cons, lookupKV, lookupPr]
        rw [if_neg hn, if_neg hn]
        exact hrec
      | error e =>
        exact hrec

theorem loadSettings_ok_eq (w : World) (schema : List SchemaField)
    (ov : Option (List (String × String))) (inst : List (String × String))
    (meta : SettingsMetadata)
    (hok : loadSettings w schema ov = .ok (inst, meta)) :
    inst = (resolvedPairs (mergeLayers (layersOf w schema ov)) schema).map (fun e => (e.1, e.2.1)) ∧
      meta = ⟨(resolvedPairs (mergeLayers (layersOf w schema ov)) schema).map (fun e => (e.1, e.2.2))⟩ := by
  unfold loadSettings at hok
  by_cases he : (fieldErrors (mergeLayers (layersOf w schema ov)) schema).isEmpty
  · simp only [he, if_true] at hok
    rw [Except.ok.injEq, Prod.mk.injEq] at hok
    exact ⟨hok.1.symm, hok.2.symm⟩
  · simp [he] at hok

theorem lastVal_defaults_of_not_mem (k : String) :
    ∀ schema : List SchemaField, k ∉ schema.map SchemaField.name →
    lastVal k (defaultsLayer schema).entries = none := by
  intro schema
  induction schema with
  | nil => intro _; simp [defaultsLayer, lastVal]
  | cons fld rest ih =>
    intro hk
    simp only [List.map_cons, List.mem_cons, not_or] at hk
    have hrec := ih hk.2
    simp only [defaultsLayer, List.filterMap_cons] at hrec ⊢
    cases fld.default with
    | none => exact hrec
    | some d =>
      simp only [Option.map_some, lastVal, hrec]
      rw [if_neg (fun h => hk.1 h.symm)]

theorem lastVal_defaults_of_mem (k d : String) :
    ∀ schema : List SchemaField, (⟨k, some d⟩ : SchemaField) ∈ schema →
    (schema.map SchemaField.name).Nodup →
    lastVal k (defaultsLayer schema).entries = some d := by
  intro schema
  induction schema with
  | nil => intro h _; simp at h
  | cons fld rest ih =>
    intro hmem hnd
    simp only [List.map_cons, List.nodup_cons] at hnd
    rcases List.mem_cons.mp hmem with heq | hrest
    · subst heq
      have hnone := lastVal_defaults_of_not_mem k rest hnd.1
      simp only [defaultsLayer, List.filterMap_cons] at hnone ⊢
      simp [Option.map_some, lastVal, hnone]
    · have hkrest : k ∈ rest.map SchemaField.name :=
        List.mem_map.mpr ⟨⟨k, some d⟩, hrest, rfl⟩
      have hne : fld.name ≠ k := fun h => hnd.1 (h ▸ hkrest)
      have hrec := ih hrest hnd.2
      simp only [defaultsLayer, List.filterMap_cons] at hrec ⊢
      cases fld.default with
      | none => exact hrec
      | some d₂ => simp only [Option.map_some, lastVal, hrec]

theorem lastDefining_none_of_all (k : String) :
    ∀ layers : List Layer, (∀ l ∈ layers, lastVal k l.entries = none) →
    lastDefining k layers = none := by
  intro layers
  induction layers with
  | nil => intro _; rfl
  | cons l ls ih =>
    intro h
    have h₁ := h l (List.mem_cons_self l ls)
    have h₂ := ih (fun l₂ hm => h l₂ (List.mem_cons_of_mem l hm))
    simp [lastDefining, h₂, definesField, h₁]

theorem lastDefining_cons (k : String) (l : Layer) (ls : List Layer) :
    lastDefining k (l :: ls) =
      match lastDefining k ls with
      | some l₂ => some l₂
      | none => if definesField k l then some l else none := rfl

/-!
Part 4: the claims.  Concrete scenarios shared by several statements.
-/

/-- The demo's party schema: three defaulted string fields. -/
def partySchema : List SchemaField :=
  [⟨"party_name", some "boring_afternoon_tea"⟩, ⟨"vibe", some "chill"⟩,
   ⟨"snack", some "plain_crackers"⟩]

/-- The demo's env-versus-config scenario: `VIBE=nostalgic` in the
process environment and an explicit YAML config file setting
`vibe: electric` (among others). -/
def partyWorld : World :=
  ⟨[("VIBE", "nostalgic")], none,
   some ("/tmp/party_settings.yaml",
     [("party_name", "rave_party"), ("vibe", "electric"), ("snack", "energy_drink")]),
   none, "/tmp"⟩

/-- The resolved values of the env-versus-config scenario. -/
def partyInst : List (String × String) :=
  [("party_name", "rave_party"), ("vibe", "electric"), ("snack", "energy_drink")]

/-- The provenance of every field in the env-versus-config scenario. -/
def partyProv : Provenance := ⟨"project", some "/tmp/party_settings.yaml"⟩

/-- The metadata of the env-versus-config scenario. -/
def partyMeta : SettingsMetadata :=
  ⟨[("party_name", partyProv), ("vibe", partyProv), ("snack", partyProv)]⟩

/-- C2: for every schema field defined in two or more layers,
`load_settings` resolves the field to the value from the
highest-precedence layer that defines it — layers ordered lowest to
highest as defaults, env, dotenv, project/explicit config file, runtime
overrides — and the metadata records exactly that layer as the winner:
`get_source(field)` reports that layer's name (and path). -/
theorem load_settings_highest_layer_wins
    (w : World) (schema : List SchemaField) (ov : Option (List (String × String)))
    (f : String) (inst : List (String × String)) (meta : SettingsMetadata)
    (l : Layer) (v : String)
    (hok : loadSettings w schema ov = .ok (inst, meta))
    (hf : f ∈ schema.map SchemaField.name)
    (_htwo : 2 ≤ definingCount f (layersOf w schema ov))
    (hl : lastDefining f (layersOf w schema ov) = some l)
    (hv : lastVal f l.entries = some v) :
    lookupKV f inst = some v ∧ meta.get_source f = some ⟨l.name, l.path⟩ := by
  obtain ⟨hinst, hmeta⟩ := loadSettings_ok_eq w schema ov inst meta hok
  have hst : lookupStore f (mergeLayers (layersOf w schema ov)) =
      some (v, ⟨l.name, l.path⟩) := by
    rw [lookupStore_merge, hl]
    simp [hv]
  have hres := resolved_lookup (mergeLayers (layersOf w schema ov)) f v
    ⟨l.name, l.path⟩ schema hf hst
  subst hinst
  subst hmeta
  exact ⟨hres.1, hres.2⟩

/-- Witness for C2 at the demo scenario: `vibe` is defined by the
defaults, env and project layers; the project layer (highest defining
one) wins with value `electric` and is recorded as the source. -/
theorem load_settings_highest_layer_wins_witness :
    2 ≤ definingCount "vibe" (layersOf partyWorld partySchema none) ∧
      (lookupKV "vibe" partyInst = some "electric" ∧
        partyMeta.get_source "vibe" = some ⟨"project", some "/tmp/party_settings.yaml"⟩) :=
  ⟨by decide,
   load_settings_highest_layer_wins partyWorld partySchema none "vibe" partyInst
     partyMeta (projectLayer partyWorld) "electric" (by rfl) (by decide) (by decide)
     (by rfl) (by rfl)⟩

/-- C1 counterexample: with the config file setting `vibe=electric` and
the environment setting `VIBE=nostalgic`, the resolver returns
`vibe=electric` — not `nostalgic` — because the config-file layer, not
the environment layer, has the higher precedence. -/
theorem env_beats_config_counterexample :
    loadSettings partyWorld partySchema none = .ok (partyInst, partyMeta) ∧
      lookupKV "vibe" partyInst = some "electric" ∧
      ¬ lookupKV "vibe" partyInst = some "nostalgic" :=
  ⟨rfl, rfl, by decide⟩

/-- C1 (amended): config file sets `vibe=electric`, environment sets
`VIBE=nostalgic` → resolved `vibe` equals `electric`, with source
`project` (the config-file layer beats the environment-variable
layer, per the precedence order). -/
theorem config_beats_env :
    loadSettings partyWorld partySchema none = .ok (partyInst, partyMeta) ∧
      lookupKV "vibe" partyInst = some "electric" ∧
      partyMeta.get_source "vibe" = some ⟨"project", some "/tmp/party_settings.yaml"⟩ :=
  ⟨rfl, rfl, rfl⟩

/-- C5: a schema field absent from every layer resolves to the schema's
own default value, and the metadata reports source `defaults`. -/
theorem load_settings_schema_default
    (w : World) (schema : List SchemaField) (ov : Option (List (String × String)))
    (f d : String) (inst : List (String × String)) (meta : SettingsMetadata)
    (hok : loadSettings w schema ov = .ok (inst, meta))
    (hfld : (⟨f, some d⟩ : SchemaField) ∈ schema)
    (hnd : (schema.map SchemaField.name).Nodup)
    (habs : ∀ l ∈ [envLayer w.env schema, dotenvLayer w.dotenv schema,
      projectLayer w, runtimeLayer ov], lastVal f l.entries = none) :
    lookupKV f inst = some d ∧ meta.get_source f = some ⟨"defaults", none⟩ := by
  obtain ⟨hinst, hmeta⟩ := loadSettings_ok_eq w schema ov inst meta hok
  have hf : f ∈ schema.map SchemaField.name :=
    List.mem_map.mpr ⟨⟨f, some d⟩, hfld, rfl⟩
  have hdef := lastVal_defaults_of_mem f d schema hfld hnd
  have hrest := lastDefining_none_of_all f
    [envLayer w.env schema, dotenvLayer w.dotenv schema, projectLayer w, runtimeLayer ov]
    habs
  have hld : lastDefining f (layersOf w schema ov) = some (defaultsLayer schema) := by
    show lastDefining f (defaultsLayer schema :: [envLayer w.env schema,
      dotenvLayer w.dotenv schema, projectLayer w, runtimeLayer ov]) = _
    rw [lastDefining_cons, hrest]
    simp [definesField, hdef]
  have hst : lookupStore f (mergeLayers (layersOf w schema ov)) =
      some (d, ⟨"defaults", none⟩) := by
    rw [lookupStore_merge, hld]
    show (lastVal f (defaultsLayer schema).entries).map _ = _
    rw [hdef]
    rfl
  have hres := resolved_lookup (mergeLayers (layersOf w schema ov)) f d
    ⟨"defaults", none⟩ schema hf hst
  subst hinst
  subst hmeta
  exact ⟨hres.1, hres.2⟩

/-- The test suite's defaulted application schema. -/
def appSchema : List SchemaField :=
  [⟨"app_name", some "utilityhub"⟩, ⟨"log_level", some "INFO"⟩,
   ⟨"database_url", some "sqlite:///memory"⟩]

/-- A world with no environment variables and no files at all. -/
def blankWorld : World := ⟨[], none, none, none, "/tmp/proj"⟩

/-- The resolved values when every layer is empty. -/
def appInst : List (String × String) :=
  [("app_name", "utilityhub"), ("log_level", "INFO"), ("database_url", "sqlite:///memory")]

/-- The metadata when every layer is empty: everything from `defaults`. -/
def appMeta : SettingsMetadata :=
  ⟨[("app_name", ⟨"defaults", none⟩), ("log_level", ⟨"defaults", none⟩),
    ("database_url", ⟨"defaults", none⟩)]⟩

/-- Witness for C5 at the defaults-only scenario of the test suite:
`database_url` resolves to `sqlite:///memory`, source `defaults`. -/
theorem load_settings_schema_default_witness :
    lookupKV "database_url" appInst = some "sqlite:///memory" ∧
      appMeta.get_source "database_url" = some ⟨"defaults", none⟩ :=
  load_settings_schema_default blankWorld appSchema none "database_url"
    "sqlite:///memory" appInst appMeta (by rfl) (by decide) (by decide) (by decide)

/-- The required-field schema of the validation-error scenario. -/
def reqSchema : List SchemaField := [⟨"database_url", none⟩]

/-- A world with no environment variables and no files, with `cwd`
`/tmp/empty`. -/
def reqWorld : World := ⟨[], none, none, none, "/tmp/empty"⟩

/-- The aggregate message raised by the validation-error scenario. -/
def reqMsg : String :=
  errorMessage ["Field required: database_url"] ["/tmp/empty/utilityhub.toml"]

/-- C7: a schema with only a required `database_url` (no default, no
env var, no files) makes `load_settings` raise a single aggregate error
whose message contains `Validation errors`, `Files checked` and
`Precedence`. -/
theorem load_settings_error_context :
    loadSettings reqWorld reqSchema none = .error reqMsg ∧
      containsSub "Validation errors".data reqMsg.data = true ∧
      containsSub "Files checked".data reqMsg.data = true ∧
      containsSub "Precedence".data reqMsg.data = true :=
  ⟨rfl, by decide, by decide, by decide⟩

/-- C9: `load_settings` is deterministic — two calls with identical
inputs (same process environment and files, same schema, same
overrides) return equal typed instances and equal metadata.  In this
embedding every input the resolver reads is part of `World`, and the
resolver performs no mutation, so equal inputs give equal results. -/
theorem load_settings_deterministic
    (w₁ w₂ : World) (s₁ s₂ : List SchemaField)
    (o₁ o₂ : Option (List (String × String)))
    (hw : w₁ = w₂) (hs : s₁ = s₂) (ho : o₁ = o₂) :
    loadSettings w₁ s₁ o₁ = loadSettings w₂ s₂ o₂ := by
  rw [hw, hs, ho]

/-- Witness for C9 at the demo scenario. -/
theorem load_settings_deterministic_witness :
    loadSettings partyWorld partySchema none = loadSettings partyWorld partySchema none :=
  load_settings_deterministic partyWorld partyWorld partySchema partySchema
    none none rfl rfl rfl

/-!
Part 5: claims about path expansion.
-/

theorem takeWhile_append_of_all {p : Char → Bool} :
    ∀ (xs ys : List Char), (∀ c ∈ xs, p c = true) →
    (∀ c, ys.head? = some c → p c = false) →
    (xs ++ ys).takeWhile p = xs ∧ (xs ++ ys).dropWhile p = ys := by
  intro xs
  induction xs with
  | nil =>
    intro ys _ hy
    cases ys with
    | nil => simp [List.takeWhile, List.dropWhile]
    | cons y ys₂ =>
      have := hy y rfl
      simp [List.takeWhile, List.dropWhile, this]
  | cons x xs₂ ih =>
    intro ys hx hy
    have hpx := hx x (List.mem_cons_self x xs₂)
    have hrec := ih ys (fun c hc => hx c (List.mem_cons_of_mem x hc)) hy
    simp [List.takeWhile, List.dropWhile, hpx, hrec.1, hrec.2]

theorem head_tail_of_head? {c : Char} :
    ∀ {l : List Char}, l.head? = some c → l = c :: l.tail := by
  intro l h
  cases l with
  | nil => simp at h
  | cons a l₂ =>
    simp only [List.head?_cons, Option.some.injEq] at h
    rw [h]
    rfl


/-- With an environment in which every variable lookup fails, the
expansion scan is the identity: every reference is left verbatim and no
error is raised. -/
theorem expandVarsL_id (env : String → Option String) (henv : ∀ n, env n = none) :
    ∀ cs : List Char, expandVarsL env cs = cs := by
  intro cs
  induction cs using expandVarsL.induct env with
  | case1 => rw [expandVarsL.eq_def]
  | case2 cs₂ nm rs hp tl hstr henveq ih =>
    rw [henv] at henveq
    exact absurd henveq (by simp)
  | case3 cs₂ nm rs hp tl henveq ih =>
    rw [expandVarsL.eq_def]
    simp only [if_pos rfl, hp, if_true, henv, ih]
    have hsplit := List.takeWhile_append_dropWhile
      (p := fun x => decide (x ≠ '}')) (l := cs₂)
    have hp₂ : (List.dropWhile (fun x => decide (x ≠ '}')) cs₂).head? = some '}' := hp
    have hcons := head_tail_of_head? hp₂
    show '$' :: '{' :: (List.takeWhile (fun x => decide (x ≠ '}')) cs₂ ++
      '}' :: (List.dropWhile (fun x => decide (x ≠ '}')) cs₂).tail) = '$' :: '{' :: cs₂
    conv_rhs => rw [← hsplit, hcons]
  | case4 cs₂ rs hp ih =>
    have hp₂ : ¬ (List.dropWhile (fun x => decide (x ≠ '}')) cs₂).head? = some '}' := hp
    rw [expandVarsL.eq_def]
    simp only [if_pos rfl, if_neg hp₂, ih]
    simp
  | case5 d cs₂ hdb hw nm tl hstr henveq ih =>
    rw [henv] at henveq
    exact absurd henveq (by simp)
  | case6 d cs₂ hdb hw nm tl henveq ih =>
    rw [expandVarsL.eq_def]
    simp only [if_pos rfl, hw, if_true, henv, ih]
    have hsplit := List.takeWhile_append_dropWhile (p := isWordChar) (l := cs₂)
    rw [List.cons_append, hsplit]
  | case7 d cs₂ hdb hw ih =>
    rw [expandVarsL.eq_def]
    simp [hw, ih]
  | case8 =>
    rw [expandVarsL.eq_def]
    simp
  | case9 c rest hc ih =>
    rw [expandVarsL.eq_def]
    simp only [if_neg hc, ih]

theorem expandVars_word_verbatim (env : String → Option String) (name rest : List Char)
    (hne : name ≠ []) (hw : ∀ c ∈ name, isWordChar c = true)
    (hrest : ∀ c, rest.head? = some c → isWordChar c = false)
    (hu : env (String.mk name) = none) :
    expandVarsL env ('$' :: (name ++ rest)) = '$' :: (name ++ expandVarsL env rest) := by
  obtain ⟨d, name₂, rfl⟩ : ∃ d name₂, name = d :: name₂ := by
    cases name with
    | nil => exact absurd rfl hne
    | cons a b => exact ⟨a, b, rfl⟩
  have hd : isWordChar d = true := hw d (List.mem_cons_self d name₂)
  have hdb : ¬ d = '{' := by
    intro h
    rw [h] at hd
    simp [isWordChar] at hd
  have hsplit := takeWhile_append_of_all (p := isWordChar) name₂ rest
    (fun c hc => hw c (List.mem_cons_of_mem d hc)) hrest
  rw [expandVarsL.eq_def]
  simp only [List.cons_append]
  simp [hd, hsplit.1, hsplit.2, hu]

theorem expandVars_brace_verbatim (env : String → Option String) (name rest : List Char)
    (hb : ∀ c ∈ name, ¬ c = '}') (hu : env (String.mk name) = none) :
    expandVarsL env ('$' :: '{' :: (name ++ '}' :: rest)) =
      '$' :: '{' :: (name ++ '}' :: expandVarsL env rest) := by
  have hsplit := takeWhile_append_of_all (p := fun x => decide (x ≠ '}')) name ('}' :: rest)
    (fun c hc => by simp [hb c hc])
    (fun c hc => by
      simp only [List.head?_cons, Option.some.injEq] at hc
      simp [← hc])
  simp only [ne_eq, decide_not] at hsplit
  rw [expandVarsL.eq_def]
  simp [hsplit.1, hsplit.2, hu]

theorem expand_path_no_vars (e : OSEnv) (henv : ∀ n, lookupKV n e.vars = none) (v : String) :
    expand_path e v = (expanduserP e (parsePath v)).map (fun p => parsePath (pathStr p)) := by
  unfold expand_path
  cases h : expanduserP e (parsePath v) with
  | error m => rfl
  | ok p =>
    simp only [Except.map]
    rw [expandVarsL_id _ henv]

/-- C4: a `$VAR` or `${VAR}` reference to an unset environment variable
is left verbatim in the expansion — the scan emits the reference
unchanged and continues — and `expand_path` raises nothing for it: under
an environment defining no variable at all, the whole
variable-expansion stage is the identity, so `expand_path` is exactly
tilde expansion followed by re-parsing. -/
theorem expand_path_undefined_var_kept_verbatim :
    (∀ (env : String → Option String) (name rest : List Char), name ≠ [] →
      (∀ c ∈ name, isWordChar c = true) →
      (∀ c, rest.head? = some c → isWordChar c = false) →
      env (String.mk name) = none →
      expandVarsL env ('$' :: (name ++ rest)) = '$' :: (name ++ expandVarsL env rest)) ∧
    (∀ (env : String → Option String) (name rest : List Char),
      (∀ c ∈ name, ¬ c = '}') → env (String.mk name) = none →
      expandVarsL env ('$' :: '{' :: (name ++ '}' :: rest)) =
        '$' :: '{' :: (name ++ '}' :: expandVarsL env rest)) ∧
    (∀ (e : OSEnv) (v : String), (∀ n, lookupKV n e.vars = none) →
      expand_path e v = (expanduserP e (parsePath v)).map (fun p => parsePath (pathStr p))) :=
  ⟨expandVars_word_verbatim, expandVars_brace_verbatim,
   fun e v h => expand_path_no_vars e h v⟩

/-- Witness for C4: the test suite's undefined-variable path keeps its
reference verbatim and expansion succeeds. -/
theorem expand_path_undefined_var_kept_verbatim_witness :
    expand_path ⟨"/home/user", [], []⟩ "$NOPE/config.yaml" =
        (expanduserP ⟨"/home/user", [], []⟩ (parsePath "$NOPE/config.yaml")).map
          (fun p => parsePath (pathStr p)) ∧
      expand_path ⟨"/home/user", [], []⟩ "$NOPE/config.yaml" =
        .ok ⟨"", ["$NOPE", "config.yaml"]⟩ :=
  ⟨expand_path_undefined_var_kept_verbatim.2.2 ⟨"/home/user", [], []⟩ "$NOPE/config.yaml"
      (fun _ => rfl),
   by simp [expand_path, expandVarsL, expanduserP, parsePath, pathStr, joinParsed, lookupKV,
     isWordChar, splitSl, String.intercalate, String.intercalate.go]⟩

theorem expanduserP_error_msg (e : OSEnv) (p : PyPath) (m : String)
    (h : expanduserP e p = .error m) : m = "Could not determine home directory." := by
  unfold expanduserP at h
  split at h
  · split at h
    · split at h
      · simp at h
      · split at h
        · simp at h
        · rw [Except.error.injEq] at h
          exact h.symm
    · simp at h
  · simp at h

/-- The environment used by the concrete expansion scenarios: home
directory `/home/user`, one variable `VAR=/custom`, no other users. -/
def demoEnv : OSEnv := ⟨"/home/user", [("VAR", "/custom")], []⟩

/-- C6: `expand_and_validate_path` returns the expanded path exactly
when it exists and otherwise raises the not-found error naming the
expanded path, while `expand_path` takes no filesystem at all and its
only possible error is the home-directory one — never a not-found
error. -/
theorem expand_and_validate_existence :
    (∀ (e : OSEnv) (fs : List String) (v : String) (p : PyPath),
      expand_path e v = .ok p → pathStr p ∈ fs →
      expand_and_validate_path e fs v = .ok p) ∧
    (∀ (e : OSEnv) (fs : List String) (v : String) (p : PyPath),
      expand_path e v = .ok p → pathStr p ∉ fs →
      expand_and_validate_path e fs v = .error ("Path does not exist: " ++ pathStr p)) ∧
    (∀ (e : OSEnv) (v m : String),
      expand_path e v = .error m → m = "Could not determine home directory.") := by
  refine ⟨?_, ?_, ?_⟩
  · intro e fs v p h hm
    unfold expand_and_validate_path
    simp only [h]
    rw [if_pos hm]
  · intro e fs v p h hm
    unfold expand_and_validate_path
    simp only [h]
    rw [if_neg hm]
  · intro e v m h
    unfold expand_path at h
    cases he : expanduserP e (parsePath v) with
    | error m₂ =>
      rw [he, Except.error.injEq] at h
      rw [← h]
      exact expanduserP_error_msg e (parsePath v) m₂ he
    | ok p =>
      rw [he] at h
      exact absurd h (by simp)

/-- Witness for C6: `$VAR/x` expands to `/custom/x`; validation accepts
it when `/custom/x` exists and reports `Path does not exist: /custom/x`
when it does not; an unresolvable `~user` is the only `expand_path`
error. -/
theorem expand_and_validate_existence_witness :
    expand_and_validate_path demoEnv ["/custom/x"] "$VAR/x" = .ok ⟨"/", ["custom", "x"]⟩ ∧
      expand_and_validate_path demoEnv [] "$VAR/x" =
        .error ("Path does not exist: " ++ pathStr ⟨"/", ["custom", "x"]⟩) ∧
      ("Could not determine home directory." : String) =
        "Could not determine home directory." :=
  ⟨expand_and_validate_existence.1 demoEnv ["/custom/x"] "$VAR/x" ⟨"/", ["custom", "x"]⟩
      (by simp [expand_path, expandVarsL, expanduserP, parsePath, pathStr, joinParsed,
        lookupKV, isWordChar, splitSl, demoEnv, String.intercalate, String.intercalate.go])
      (by decide),
   expand_and_validate_existence.2.1 demoEnv [] "$VAR/x" ⟨"/", ["custom", "x"]⟩
      (by simp [expand_path, expandVarsL, expanduserP, parsePath, pathStr, joinParsed,
        lookupKV, isWordChar, splitSl, demoEnv, String.intercalate, String.intercalate.go])
      (by decide),
   expand_and_validate_existence.2.2 ⟨"/home/user", [], []⟩ "~nouser/x"
      "Could not determine home directory."
      (by simp [expand_path, expanduserP, parsePath, lookupKV, splitSl])⟩

/-- C10: the validator hook equals `expand_and_validate_path` composed
with `str`, for `Path` and string arguments alike, and every success of
the hook is a path that exists — the hook is never the
existence-check-free `expand_path`. -/
theorem expand_path_validator_refinement :
    (∀ (e : OSEnv) (fs : List String) (v : PathValue),
      expand_path_validator e fs v = expand_and_validate_path e fs (strOfValue v)) ∧
    (∀ (e : OSEnv) (fs : List String) (v : PathValue) (p : PyPath),
      expand_path_validator e fs v = .ok p → pathStr p ∈ fs) := by
  constructor
  · intro e fs v
    cases v with
    | path p => rfl
    | str s => rfl
  · intro e fs v p h
    have h₂ : expand_and_validate_path e fs (strOfValue v) = .ok p := by
      rw [← h]
      cases v with
      | path q => rfl
      | str s => rfl
    unfold expand_and_validate_path at h₂
    cases hep : expand_path e (strOfValue v) with
    | error m =>
      rw [hep] at h₂
      exact absurd h₂ (by simp)
    | ok q =>
      rw [hep] at h₂
      by_cases hm : pathStr q ∈ fs
      · simp only [if_pos hm] at h₂
        rw [Except.ok.injEq] at h₂
        rw [← h₂]
        exact hm
      · simp only [if_neg hm] at h₂
        exact absurd h₂ (by simp)

/-- Witness for C10 at the demo environment, a `Path` argument and a
string argument. -/
theorem expand_path_validator_refinement_witness :
    expand_path_validator demoEnv ["/custom/x"] (.path ⟨"/", ["custom", "x"]⟩) =
        expand_and_validate_path demoEnv ["/custom/x"]
          (strOfValue (.path ⟨"/", ["custom", "x"]⟩)) ∧
      pathStr ⟨"/", ["custom", "x"]⟩ ∈ ["/custom/x"] :=
  ⟨expand_path_validator_refinement.1 demoEnv ["/custom/x"] (.path ⟨"/", ["custom", "x"]⟩),
   expand_path_validator_refinement.2 demoEnv ["/custom/x"] (.str "$VAR/x")
      ⟨"/", ["custom", "x"]⟩
      (by simp [expand_path_validator, expand_and_validate_path, expand_path, expandVarsL,
        expanduserP, parsePath, pathStr, joinParsed, lookupKV, isWordChar, splitSl, demoEnv,
        String.intercalate, String.intercalate.go])⟩

/-- C8: `~/config.yaml` expands to `<home>/config.yaml`; with
`VAR=/custom`, `$VAR/x` and `${VAR}/x` both expand to `/custom/x`. -/
theorem expand_path_expansion_examples :
    expand_path demoEnv "~/config.yaml" = .ok ⟨"/", ["home", "user", "config.yaml"]⟩ ∧
      pathStr ⟨"/", ["home", "user", "config.yaml"]⟩ = demoEnv.home ++ "/config.yaml" ∧
      expand_path demoEnv "$VAR/x" = .ok ⟨"/", ["custom", "x"]⟩ ∧
      expand_path demoEnv "${VAR}/x" = .ok ⟨"/", ["custom", "x"]⟩ ∧
      pathStr ⟨"/", ["custom", "x"]⟩ = "/custom/x" := by
  refine ⟨?_, by decide, ?_, ?_, by decide⟩ <;>
    simp [expand_path, expandVarsL, expanduserP, parsePath, pathStr, joinParsed, lookupKV,
      isWordChar, splitSl, demoEnv, String.intercalate, String.intercalate.go]

/-- C3 counterexample: a relative input with neither `~` nor any
variable reference is returned relative — `expand_path` performs no
absolutization. -/
theorem expand_path_relative_counterexample :
    expand_path demoEnv "config/app.yaml" = .ok ⟨"", ["config", "app.yaml"]⟩ ∧
      (PyPath.mk "" ["config", "app.yaml"]).isAbsolute = false :=
  ⟨by simp [expand_path, expandVarsL, expanduserP, parsePath, pathStr, joinParsed, lookupKV,
      isWordChar, splitSl, demoEnv, String.intercalate, String.intercalate.go],
   by decide⟩

theorem splitSl_no_slash :
    ∀ (cs : List Char), ∀ seg ∈ splitSl cs, '/' ∉ seg := by
  intro cs
  induction cs with
  | nil =>
    intro seg hseg
    simp [splitSl] at hseg
    simp [hseg]
  | cons c rest ih =>
    intro seg hseg
    simp only [splitSl] at hseg
    by_cases hc : c = '/'
    · rw [if_pos hc] at hseg
      rcases List.mem_cons.mp hseg with h | h
      · simp [h]
      · exact ih seg h
    · rw [if_neg hc] at hseg
      cases hr : splitSl rest with
      | nil =>
        rw [hr] at hseg
        simp at hseg
        simp [hseg]
        exact fun h => hc h.symm
      | cons s ss =>
        rw [hr] at hseg
        rcases List.mem_cons.mp hseg with h | h
        · subst h
          intro hmem
          rcases List.mem_cons.mp hmem with h₂ | h₂
          · exact hc h₂.symm
          · exact ih s (hr ▸ List.mem_cons_self s ss) h₂
        · exact ih seg (hr ▸ List.mem_cons_of_mem s h)

theorem splitSl_chars_sub :
    ∀ (cs : List Char), ∀ seg ∈ splitSl cs, ∀ c ∈ seg, c ∈ cs := by
  intro cs
  induction cs with
  | nil =>
    intro seg hseg
    simp [splitSl] at hseg
    simp [hseg]
  | cons a rest ih =>
    intro seg hseg c hc
    simp only [splitSl] at hseg
    by_cases ha : a = '/'
    · rw [if_pos ha] at hseg
      rcases List.mem_cons.mp hseg with h | h
      · subst h; simp at hc
      · exact List.mem_cons_of_mem a (ih seg h c hc)
    · rw [if_neg ha] at hseg
      cases hr : splitSl rest with
      | nil =>
        rw [hr] at hseg
        simp at hseg
        subst hseg
        simp at hc
        simp [hc]
      | cons s ss =>
        rw [hr] at hseg
        rcases List.mem_cons.mp hseg with h | h
        · subst h
          rcases List.mem_cons.mp hc with h₂ | h₂
          · simp [h₂]
          · exact List.mem_cons_of_mem a (ih s (hr ▸ List.mem_cons_self s ss) c h₂)
        · exact List.mem_cons_of_mem a (ih seg (hr ▸ List.mem_cons_of_mem s h) c hc)

theorem expandVarsL_no_dollar (env : String → Option String) :
    ∀ cs : List Char, '$' ∉ cs → expandVarsL env cs = cs := by
  intro cs
  induction cs with
  | nil => intro _; rw [expandVarsL.eq_def]
  | cons c rest ih =>
    intro h
    have hc : ¬ c = '$' := fun hx => h (hx ▸ List.mem_cons_self c rest)
    have hrest : '$' ∉ rest := fun hx => h (List.mem_cons_of_mem c hx)
    rw [expandVarsL.eq_def]
    simp only [if_neg hc, ih hrest]

theorem intercalate_go_chars (s : String) :
    ∀ (as : List String) (acc : String) (c : Char),
    c ∈ (String.intercalate.go acc s as).data →
    c ∈ acc.data ∨ c ∈ s.data ∨ ∃ t ∈ as, c ∈ t.data := by
  intro as
  induction as with
  | nil =>
    intro acc c hc
    exact Or.inl hc
  | cons a as₂ ih =>
    intro acc c hc
    rw [String.intercalate.go] at hc
    rcases ih (acc ++ s ++ a) c hc with h | h | ⟨t, ht, hmem⟩
    · rw [String.data_append, String.data_append] at h
      rcases List.mem_append.mp h with h₂ | h₂
      · rcases List.mem_append.mp h₂ with h₃ | h₃
        · exact Or.inl h₃
        · exact Or.inr (Or.inl h₃)
      · exact Or.inr (Or.inr ⟨a, List.mem_cons_self a as₂, h₂⟩)
    · exact Or.inr (Or.inl h)
    · exact Or.inr (Or.inr ⟨t, List.mem_cons_of_mem a ht, hmem⟩)

theorem intercalate_chars (s : String) (parts : List String) (c : Char)
    (hc : c ∈ (String.intercalate s parts).data) :
    c ∈ s.data ∨ ∃ t ∈ parts, c ∈ t.data := by
  cases parts with
  | nil => simp [String.intercalate] at hc
  | cons a as =>
    rw [String.intercalate] at hc
    rcases intercalate_go_chars s as a c hc with h | h | ⟨t, ht, hmem⟩
    · exact Or.inr ⟨a, List.mem_cons_self a as, h⟩
    · exact Or.inl h
    · exact Or.inr ⟨t, List.mem_cons_of_mem a ht, hmem⟩

theorem no_dollar_pathStr_parse (v : String) (h : '$' ∉ v.data) :
    '$' ∉ (pathStr (parsePath v)).data := by
  intro hmem
  unfold pathStr at hmem
  have hparts : ∀ t ∈ (parsePath v).parts, '$' ∉ t.data := by
    intro t ht
    simp only [parsePath] at ht
    rcases List.mem_filter.mp ht with ⟨hmap, _⟩
    rcases List.mem_map.mp hmap with ⟨seg, hseg, rfl⟩
    intro hcm
    exact h (splitSl_chars_sub v.data seg hseg '$' hcm)
  have hroot : '$' ∉ (parsePath v).root.data := by
    simp only [parsePath]
    split
    · simp
    · split
      · simp
      · simp
  by_cases hr : (parsePath v).root = ""
  · rw [if_pos hr] at hmem
    by_cases hp : (parsePath v).parts = []
    · rw [if_pos hp] at hmem
      simp at hmem
    · rw [if_neg hp] at hmem
      rcases intercalate_chars "/" (parsePath v).parts '$' hmem with hs | ⟨t, ht, hmem₂⟩
      · simp at hs
      · exact hparts t ht hmem₂
  · rw [if_neg hr] at hmem
    rw [String.data_append] at hmem
    rcases List.mem_append.mp hmem with h₂ | h₂
    · exact hroot h₂
    · rcases intercalate_chars "/" (parsePath v).parts '$' h₂ with hs | ⟨t, ht, hmem₂⟩
      · simp at hs
      · exact hparts t ht hmem₂

theorem parsePath_root_eq (v : String) :
    (parsePath v).root =
      (if ((v.data).takeWhile (fun c => decide (c = '/'))).length = 0 then ""
       else if ((v.data).takeWhile (fun c => decide (c = '/'))).length = 2 then "//"
       else "/") := rfl

theorem parsePath_root_of_not_slash (v : String) (h : ¬ v.data.head? = some '/') :
    (parsePath v).root = "" := by
  rw [parsePath_root_eq]
  cases hd : v.data with
  | nil => simp
  | cons c cs =>
    have hc : ¬ c = '/' := by
      intro hx
      rw [hd] at h
      exact h (by subst hx; rfl)
    simp [List.takeWhile_cons, hc]

theorem parsePath_root_of_slash (v : String) (h : v.data.head? = some '/') :
    ¬ (parsePath v).root = "" := by
  rw [parsePath_root_eq]
  have hn : ¬ ((v.data).takeWhile (fun c => decide (c = '/'))).length = 0 := by
    cases hd : v.data with
    | nil => rw [hd] at h; simp at h
    | cons c cs =>
      rw [hd] at h
      simp only [List.head?_cons, Option.some.injEq] at h
      subst h
      simp [List.takeWhile_cons]
  rw [if_neg hn]
  split
  · decide
  · decide

theorem parsePath_root_cases (v : String) :
    (parsePath v).root = "" ∨ (parsePath v).root = "/" ∨ (parsePath v).root = "//" := by
  rw [parsePath_root_eq]
  split
  · exact Or.inl rfl
  · split
    · exact Or.inr (Or.inr rfl)
    · exact Or.inr (Or.inl rfl)

theorem intercalate_go_head (s : String) :
    ∀ (as : List String) (acc : String), ¬ acc.data = [] →
    (String.intercalate.go acc s as).data.head? = acc.data.head? := by
  intro as
  induction as with
  | nil => intro acc _; rw [String.intercalate.go]
  | cons a as₂ ih =>
    intro acc hacc
    rw [String.intercalate.go]
    have hne : ¬ (acc ++ s ++ a).data = [] := by
      rw [String.data_append, String.data_append]
      simp only [List.append_assoc]
      intro hx
      exact hacc (List.append_eq_nil.mp hx).1
    rw [ih (acc ++ s ++ a) hne]
    rw [String.data_append, String.data_append]
    cases hd : acc.data with
    | nil => exact absurd hd hacc
    | cons c cs => simp

theorem parsePath_parts_ok (v : String) :
    ∀ t ∈ (parsePath v).parts, ¬ t.data = [] ∧ '/' ∉ t.data := by
  intro t ht
  simp only [parsePath] at ht
  rcases List.mem_filter.mp ht with ⟨hmap, hcond⟩
  rcases List.mem_map.mp hmap with ⟨seg, hseg, rfl⟩
  constructor
  · intro hx
    simp only [Bool.and_eq_true, decide_eq_true_eq] at hcond
    exact hcond.1 (by cases hx; rfl)
  · exact splitSl_no_slash v.data seg hseg

theorem expanduserP_noop (e : OSEnv) (p : PyPath)
    (ht : ∀ p₀, p.parts.head? = some p₀ → ¬ p₀.data.head? = some '~') :
    expanduserP e p = .ok p := by
  unfold expanduserP
  rcases hp : p.parts with _ | ⟨p₀, rest⟩
  · rfl
  · have hni := ht p₀ (by rw [hp]; rfl)
    have hneg : ¬ (p.root = "" ∧ p₀.data.head? = some '~') := fun hc => hni hc.2
    simp only [if_neg hneg]

theorem isAbsolute_reparse (v : String) :
    (parsePath (pathStr (parsePath v))).isAbsolute = (parsePath v).isAbsolute := by
  by_cases hr : (parsePath v).root = ""
  · have h₂ : (parsePath (pathStr (parsePath v))).root = "" := by
      apply parsePath_root_of_not_slash
      rw [pathStr, if_pos hr]
      by_cases hp : (parsePath v).parts = []
      · rw [if_pos hp]
        decide
      · rw [if_neg hp]
        obtain ⟨t, ts, hts⟩ := List.exists_cons_of_ne_nil hp
        rw [hts]
        rw [String.intercalate]
        have htok := parsePath_parts_ok v t (hts ▸ List.mem_cons_self t ts)
        rw [intercalate_go_head "/" ts t htok.1]
        cases hdt : t.data with
        | nil => exact absurd hdt htok.1
        | cons c cs =>
          simp only [List.head?_cons]
          intro hx
          rw [Option.some.injEq] at hx
          exact htok.2 (by rw [hdt, ← hx]; exact List.mem_cons_self c cs)
    simp [PyPath.isAbsolute, hr, h₂]
  · have hcase := parsePath_root_cases v
    have hslash : (pathStr (parsePath v)).data.head? = some '/' := by
      rw [pathStr, if_neg hr]
      rw [String.data_append]
      rcases hcase with h | h | h
      · exact absurd h hr
      · rw [h]; rfl
      · rw [h]; rfl
    have h₂ := parsePath_root_of_slash _ hslash
    simp [PyPath.isAbsolute, h₂, hr]

/-- C3 (amended): `expand_path` expands tilde and variable references
but performs no absolutization: an input containing neither a `$` nor a
leading-`~` first component is only re-parsed, and the result is
absolute exactly when the input itself begins with `/` — a relative
such input stays relative. -/
theorem expand_path_no_expansion_absoluteness (e : OSEnv) (v : String)
    (hd : '$' ∉ v.data)
    (ht : ∀ p₀, (parsePath v).parts.head? = some p₀ → ¬ p₀.data.head? = some '~') :
    expand_path e v = .ok (parsePath (pathStr (parsePath v))) ∧
      (parsePath (pathStr (parsePath v))).isAbsolute = (parsePath v).isAbsolute ∧
      ((parsePath v).isAbsolute = true ↔ v.data.head? = some '/') := by
  refine ⟨?_, isAbsolute_reparse v, ?_, ?_⟩
  · unfold expand_path
    simp only [expanduserP_noop e _ ht]
    rw [expandVarsL_no_dollar _ _ (no_dollar_pathStr_parse v hd)]
  · intro habs
    by_cases hs : v.data.head? = some '/'
    · exact hs
    · exact absurd (parsePath_root_of_not_slash v hs)
        (by simpa [PyPath.isAbsolute] using habs)
  · intro hs
    have h₂ := parsePath_root_of_slash v hs
    simp [PyPath.isAbsolute, h₂]

/-- Witness for the amended C3 at the relative input of the test suite. -/
theorem expand_path_no_expansion_absoluteness_witness :
    expand_path demoEnv "config/app.yaml" =
        .ok (parsePath (pathStr (parsePath "config/app.yaml"))) ∧
      ((parsePath "config/app.yaml").isAbsolute = true ↔
        "config/app.yaml".data.head? = some '/') :=
  have happ := expand_path_no_expansion_absoluteness demoEnv "config/app.yaml"
    (by decide)
    (fun p₀ hp => by
      injection hp with h
      subst h
      decide)
  ⟨happ.1, happ.2.2⟩
